import Mathlib

/-!
Verification of node-management views (project/component tree, pointer graph,
privacy, fork, template) against their natural-language specification.

Nodes are identified by their stable keys, modelled as `Nat`.  Loading a node
object from the store and comparing node objects for identity corresponds to
comparing keys.  View functions are embedded as pure functions from the
relevant slice of stored state (plus request parameters) to the new stored
state together with a success flag or an error value; an HTTP error raised
before a `save` call leaves the stored state unchanged, which the embedding
expresses by returning the input state on the error path.
-/

/-! ## Reordering components (`project_reorder_components`) -/

/-- Embeds `project_reorder_components`.  `nodes` is the node's ordered child
list (keys), `isDel` tells whether the child with a given key is soft-deleted,
and `newList` is the submitted order (keys, already loaded).  The view filters
the active and deleted children, compares the submitted list with the active
children by length and by set equality (mutual membership), and on success
stores the new order followed by the deleted children; otherwise it raises a
bad request without saving.  Returns the stored child list after the request
and the success flag. -/
def reorderCheck (validNodes newList : List Nat) : Bool :=
  validNodes.length == newList.length
    && validNodes.all (fun k => newList.contains k)
    && newList.all (fun k => validNodes.contains k)

def projectReorderComponents (isDel : Nat → Bool) (nodes newList : List Nat) :
    List Nat × Bool :=
  let validNodes := nodes.filter (fun k => !isDel k)
  let deletedNodes := nodes.filter (fun k => isDel k)
  if reorderCheck validNodes newList then
    (newList ++ deletedNodes, true)
  else
    (nodes, false)

/-! ## Comment configuration (`configure_comments`) -/

/-- The slice of node state that `configure_comments` touches. -/
structure CNode where
  commentLevel : Option String
deriving DecidableEq

/-- Whether a JSON string value is falsy in Python (`not comment_level`):
absent or the empty string. -/
def isFalsy : Option String → Bool
  | none => true
  | some s => s.isEmpty

/-- Embeds `configure_comments`: a falsy `commentLevel` resets the stored
level to `None`; `public` and `private` are stored as given; any other value
raises a bad request before `node.save()`, leaving the stored level
unchanged.  Returns the stored node after the request and the success flag. -/
def configureComments (node : CNode) (commentLevel : Option String) :
    CNode × Bool :=
  if isFalsy commentLevel then ({ commentLevel := none }, true)
  else if commentLevel == some "public" || commentLevel == some "private" then
    ({ commentLevel := commentLevel }, true)
  else (node, false)

/-! ## Node search (`search_node`) -/

/-- The slice of node state consulted by `search_node`'s query. -/
structure SNode where
  id : Nat
  title : List Char
  isDeleted : Bool
  isCollection : Bool
  isPublic : Bool
  contributors : List Nat
deriving DecidableEq

/-- Whitespace characters removed by Python's `str.strip()`. -/
def isSpaceChar (c : Char) : Bool :=
  c == ' ' || c == '\t' || c == '\n' || c == '\r'

/-- Python's `str.strip()` on a character list: remove leading and trailing
whitespace. -/
def pyStrip (s : List Char) : List Char :=
  ((s.dropWhile isSpaceChar).reverse.dropWhile isSpaceChar).reverse

/-- The conjunction of query clauses built by `search_node`: title match
(`icontains`, evaluated by the external query layer `titleMatch`), not
deleted, visibility (contributor, or public when `includePublic`), not a
collection, and — when a node was loaded from `nodeId` — exclusion of that
node's id and its child node ids. -/
def odmMatch (titleMatch : List Char → List Char → Bool) (userId : Nat)
    (includePublic : Bool) (query : List Char) (excluded : Option (Nat × List Nat))
    (n : SNode) : Bool :=
  titleMatch query n.title
    && !n.isDeleted
    && (n.contributors.contains userId || (includePublic && n.isPublic))
    && !n.isCollection
    && (match excluded with
        | some (k, kids) => !(k :: kids).contains n.id
        | none => true)

/-- Embeds `search_node`.  `excluded` is the node loaded from the request's
`nodeId` together with its `node_ids` (child node keys), or `none` when no
node was supplied or found.  An empty query after stripping short-circuits to
an empty node list; otherwise the store is filtered by the query, the
requested page is sliced out, and nodes without contributors are dropped
during serialization. -/
def searchNode (titleMatch : List Char → List Char → Bool) (allNodes : List SNode)
    (userId : Nat) (excluded : Option (Nat × List Nat)) (includePublic : Bool)
    (size page : Nat) (rawQuery : List Char) : List SNode :=
  let query := pyStrip rawQuery
  if query.isEmpty then []
  else
    (((allNodes.filter
        (odmMatch titleMatch userId includePublic query excluded)).drop
          (page * size)).take size).filter
      (fun n => !n.contributors.isEmpty)

/-! ## Editable children (`_get_children`, `get_editable_children`) -/

/-- The metadata of a node in the component tree, as read by
`_get_children`. -/
structure NInfo where
  key : Nat
  title : List Char
  isDeleted : Bool
  isPublic : Bool
  parentId : Nat
deriving DecidableEq

/-- A node of the component tree together with the calling user's admin
permission on it (`has_permission(auth.user, ADMIN)`) and its primary
children (`nodes_primary`) in order.  The tree shape reflects the acyclic
parent-chain invariant of the data model. -/
inductive NTree where
  | node (info : NInfo) (admin : Bool) (children : List NTree)

/-- Metadata of a tree node. -/
def NTree.info : NTree → NInfo
  | .node i _ _ => i

/-- The calling user's admin permission on a tree node. -/
def NTree.admin : NTree → Bool
  | .node _ a _ => a

/-- Primary children of a tree node, in stored order. -/
def NTree.children : NTree → List NTree
  | .node _ _ cs => cs

/-- One serialized entry of the editable-children listing. -/
structure ChildEntry where
  id : Nat
  title : List Char
  indent : Nat
  isPublic : Bool
  parentId : Nat
deriving DecidableEq

/-- The guard `_get_children` applies to each child before listing it and
descending into it: not deleted, and the user holds admin on it. -/
def editableOk (t : NTree) : Bool :=
  !t.info.isDeleted && t.admin

/-- Embeds the loop body of `_get_children` over a child list: each child
passing the guard contributes its serialized entry followed by its own
recursively collected children at the next indent; a child failing the guard
contributes nothing and is not descended into. -/
def getChildrenList : List NTree → Nat → List ChildEntry
  | [], _ => []
  | NTree.node i a cs :: rest, indent =>
    (if !i.isDeleted && a then
      ({ id := i.key, title := i.title, indent := indent, isPublic := i.isPublic,
         parentId := i.parentId } : ChildEntry) :: getChildrenList cs (indent + 1)
     else []) ++ getChildrenList rest indent

/-- Embeds `_get_children` on a node: collect over its primary children
starting at the given indent. -/
def getChildren (t : NTree) (indent : Nat) : List ChildEntry :=
  getChildrenList t.children indent

/-- The response of `get_editable_children`. -/
structure EditableChildrenResp where
  nodeId : Nat
  nodeTitle : List Char
  nodeIsPublic : Bool
  children : List ChildEntry
deriving DecidableEq

/-- Embeds `get_editable_children`: the `must_have_permission(ADMIN)`
decorator rejects a caller without admin on the node before the body runs;
otherwise the response carries the node summary and `_get_children(node,
auth)` starting at indent 0. -/
def get_editable_children (t : NTree) : Option EditableChildrenResp :=
  if t.admin then
    some { nodeId := t.info.key, nodeTitle := t.info.title,
           nodeIsPublic := t.info.isPublic, children := getChildren t 0 }
  else none

/-- Descendants of the nodes in a child list that are reachable through
children which all pass the editable guard: each step of the path enters a
child that is non-deleted and admin-permitted.  This is the set of nodes the
traversal of `_get_children` may visit. -/
inductive EditableReach : List NTree → NTree → Prop
  | here {cs : List NTree} {c : NTree} :
      c ∈ cs → editableOk c = true → EditableReach cs c
  | deeper {cs : List NTree} {c d : NTree} :
      c ∈ cs → editableOk c = true → EditableReach c.children d →
      EditableReach cs d

/-! ## Pointer graph (`_add_pointers`, `add_pointers`, `move_pointers`) -/

/-- An active pointer record held by a host node: its record key and the key
of the target node. -/
structure Ptr where
  pid : Nat
  target : Nat
deriving DecidableEq

/-- Modelled from the spec: `Node.add_pointer` lives in the node model, which
is not part of this file.  Per the spec it fails with `ValueError` if the
target equals the host, if the host already holds an active pointer to the
target, or if the target is a tree ancestor or descendant of the host;
otherwise it appends a new pointer record for the target to the host's
pointer list.  `anc a b` is the tree's strict-ancestor relation and `fresh`
keys the new record. -/
def addPointer (anc : Nat → Nat → Bool) (hostKey : Nat) (ptrs : List Ptr)
    (fresh : Nat) (t : Nat) : Except Unit (List Ptr × Nat) :=
  if t == hostKey then .error ()
  else if ptrs.any (fun p => p.target == t) then .error ()
  else if anc hostKey t || anc t hostKey then .error ()
  else .ok (ptrs ++ [⟨fresh, t⟩], fresh + 1)

/-- The in-memory loop of `_add_pointers`: each target is added to the host's
in-memory pointer list with `save=False`; the first `ValueError` aborts the
loop before the trailing `node.save()` is reached. -/
def addPointersLoop (anc : Nat → Nat → Bool) (hostKey : Nat) :
    List Ptr → Nat → List Nat → Except Unit (List Ptr × Nat)
  | ptrs, fresh, [] => .ok (ptrs, fresh)
  | ptrs, fresh, t :: rest =>
    match addPointer anc hostKey ptrs fresh t with
    | .error e => .error e
    | .ok (ptrs', fresh') => addPointersLoop anc hostKey ptrs' fresh' rest

/-- Embeds `_add_pointers` as seen from the persisted store: the host is
loaded (its in-memory pointer list equals the saved one), all targets are
added in memory, and only when the loop completes does `node.save()` persist
the new list; a `ValueError` propagates to the caller (`add_pointers`
surfaces it as a bad request) before any save, leaving the persisted list
unchanged.  Returns the persisted pointer list and the success flag. -/
def addPointersPersist (anc : Nat → Nat → Bool) (hostKey : Nat)
    (saved : List Ptr) (fresh : Nat) (targets : List Nat) : List Ptr × Bool :=
  match addPointersLoop anc hostKey saved fresh targets with
  | .error _ => (saved, false)
  | .ok (ptrs', _) => (ptrs', true)

/-- The pointer records a completed batch appends: one per target, keyed
consecutively from `fresh`. -/
def mkPtrs (fresh : Nat) : List Nat → List Ptr
  | [] => []
  | t :: ts => ⟨fresh, t⟩ :: mkPtrs (fresh + 1) ts

/-- Modelled from the spec: `Node.rm_pointer` lives in the node model, which
is not part of this file.  Per the spec it fails if the pointer is not an
active pointer owned by the host; otherwise it removes that pointer record
from the host's list. -/
def rmPointer (ptrs : List Ptr) (p : Ptr) : Except Unit (List Ptr) :=
  if ptrs.contains p then .ok (ptrs.erase p) else .error ()

/-- The state `move_pointers` touches: the persisted pointer lists of the
`from` node and the `to` node, and the next fresh pointer-record key. -/
structure MoveState where
  fromPtrs : List Ptr
  toPtrs : List Ptr
  fresh : Nat
deriving DecidableEq

/-- Embeds one iteration of the loop in `move_pointers` for target `t`:
`pointing_at` resolves the from-node's active pointer to `t` (a missing
pointer is a bad request before any mutation); `rm_pointer` removes it and
`from_node.save()` persists the removal; then `_add_pointers(to_node,
[pointer_node])` adds a fresh pointer on the to-node, a `ValueError` there
surfacing as a bad request after the removal has already been persisted. -/
def moveOnePointer (anc : Nat → Nat → Bool) (toKey : Nat) (st : MoveState)
    (t : Nat) : MoveState × Bool :=
  match st.fromPtrs.find? (fun p => p.target == t) with
  | none => (st, false)
  | some p =>
    match rmPointer st.fromPtrs p with
    | .error _ => (st, false)
    | .ok f' =>
      match addPointer anc toKey st.toPtrs st.fresh t with
      | .error _ => ({ st with fromPtrs := f' }, false)
      | .ok (t', c') => ({ fromPtrs := f', toPtrs := t', fresh := c' }, true)

/-- Embeds the loop of `move_pointers` over the submitted target keys; the
first failed iteration stops the request with a bad request, keeping the
state its iteration left behind. -/
def movePointers (anc : Nat → Nat → Bool) (toKey : Nat) :
    MoveState → List Nat → MoveState × Bool
  | st, [] => (st, true)
  | st, t :: rest =>
    match moveOnePointer anc toKey st t with
    | (st', true) => movePointers anc toKey st' rest
    | (st', false) => (st', false)

/-! ## Privacy (`project_set_privacy`) -/

/-- The slice of node state `set_privacy` consults and writes. -/
structure PrivNode where
  isPublic : Bool
  archiving : Bool
  isRetracted : Bool
deriving DecidableEq

/-- The privacy value submitted with the request. -/
inductive TargetPrivacy where
  | toPublic
  | toPrivate
deriving DecidableEq

/-- The failures `project_set_privacy` can surface. -/
inductive SetPrivacyErr where
  | permissionDenied
  | badRequestMissing
  | badRequestNodeState
deriving DecidableEq

/-- Modelled from the spec: `Node.set_privacy` lives in the node model, which
is not part of this file.  Per the spec it fails with `NodeStateError` when
the requested transition is not permitted — e.g. making an archiving or
retracted node public — and otherwise stores the requested flag. -/
def set_privacy (node : PrivNode) (target : TargetPrivacy) :
    Except Unit PrivNode :=
  match target with
  | .toPublic =>
    if node.archiving || node.isRetracted then .error ()
    else .ok { node with isPublic := true }
  | .toPrivate => .ok { node with isPublic := false }

/-- Embeds `project_set_privacy` together with its decorators:
`must_have_permission(ADMIN)` runs before the view body, so an actor whose
effective permission is below admin is rejected with `PermissionDenied`
before any state is touched; a missing `permissions` argument is a bad
request; a `NodeStateError` from `set_privacy` is surfaced as a bad request.
Returns the stored node after the request and the error, if any. -/
def projectSetPrivacy (hasAdmin : Bool) (node : PrivNode)
    (permissions : Option TargetPrivacy) : PrivNode × Option SetPrivacyErr :=
  if !hasAdmin then (node, some .permissionDenied)
  else
    match permissions with
    | none => (node, some .badRequestMissing)
    | some target =>
      match set_privacy node target with
      | .error _ => (node, some .badRequestNodeState)
      | .ok node' => (node', none)

/-! ## Forking (`node_fork_page`) -/

/-- The failures `node_fork_page` can surface. -/
inductive ForkErr where
  | diskSavingMode
  | forbidden
deriving DecidableEq

/-- Modelled from the spec: `Node.fork_node` lives in the node model, which
is not part of this file.  Per the spec it requires the actor to have at
least read access, failing with `PermissionsError` otherwise, and on success
creates and returns the new fork.  `created` is the list of node keys
persisted so far and `fresh` keys the new fork. -/
def fork_node (canRead : Bool) (created : List Nat) (fresh : Nat) :
    List Nat × Except Unit Nat :=
  if canRead then (created ++ [fresh], .ok fresh)
  else (created, .error ())

/-- Embeds `node_fork_page` together with its decorators:
`http_error_if_disk_saving_mode` runs before the view body, so when the
system-wide disk-saving mode is active the request fails as an HTTP error
before `fork_node` does any work; a `PermissionsError` from `fork_node` is
surfaced as HTTP forbidden; otherwise the new fork is returned. -/
def nodeForkPage (diskSavingMode : Bool) (canRead : Bool)
    (created : List Nat) (fresh : Nat) : List Nat × Except ForkErr Nat :=
  if diskSavingMode then (created, .error .diskSavingMode)
  else
    match fork_node canRead created fresh with
    | (created', .error _) => (created', .error .forbidden)
    | (created', .ok f) => (created', .ok f)

/-! ## Field updates (`update_node`) -/

/-- The node fields reachable through `update_node`, together with
representative fields that must never change through this path: the
contributor permission mapping, the tree links, and the audit log. -/
structure UNode where
  title : String
  category : String
  description : String
  contributorPerms : List (Nat × Nat)
  childKeys : List Nat
  logs : List Nat
deriving DecidableEq

/-- The whitelist of fields writable through `node.update`. -/
def WRITABLE_WHITELIST : List String := ["title", "category", "description"]

/-- Reads a whitelisted field of a node. -/
def getField (n : UNode) (key : String) : String :=
  if key = "title" then n.title
  else if key = "category" then n.category
  else n.description

/-- Writes a whitelisted field of a node. -/
def setField (n : UNode) (key : String) (v : String) : UNode :=
  if key = "title" then { n with title := v }
  else if key = "category" then { n with category := v }
  else { n with description := v }

/-- Modelled from the spec: `Node.update` lives in the node model, which is
not part of this file.  Per the spec only the whitelisted fields may be
changed through this path; attempting any other field fails with
`NodeUpdateError` naming the offending field, and on success the set of
changed field names is returned. -/
def nodeUpdate (node : UNode) :
    List (String × String) → Except String (UNode × List String)
  | [] => .ok (node, [])
  | (key, v) :: rest =>
    if key ∈ WRITABLE_WHITELIST then
      match nodeUpdate (setField node key v) rest with
      | .error e => .error e
      | .ok (node', names) =>
        .ok (node', if getField node key = v then names else key :: names)
    else .error key

/-- Embeds `update_node`: a `NodeUpdateError` from `node.update` is surfaced
as a bad request naming the offending field before `node.save()` is reached,
so the persisted node is unchanged; on success the node is saved and the
changed field names are returned. -/
def updateNodeView (node : UNode) (changes : List (String × String)) :
    UNode × Except String (List String) :=
  match nodeUpdate node changes with
  | .error key => (node, .error key)
  | .ok (node', names) => (node', .ok names)

/-! ## Component removal (`component_remove`) -/

/-- An ancestor of the removed node as the view sees it: its URL and whether
the acting user can view it. -/
structure AncView where
  url : String
  canView : Bool
deriving DecidableEq

/-- Modelled from the spec: `Node.remove_node` lives in the node model, which
is not part of this file.  Per the spec it fails with `NodeStateError` when
the node is a registration or a descendant prevents deletion; `blocked`
summarizes those conditions. -/
def remove_node (blocked : Bool) : Except Unit Unit :=
  if blocked then .error () else .ok ()

/-- Embeds `component_remove` after its decorators: a `NodeStateError` from
`remove_node` is surfaced as a bad request; after a successful removal the
view inspects only the immediate parent (`node.parent_node`), redirecting to
its URL when it exists and the actor can view it, and to the dashboard
otherwise.  `ancestors` lists the removed node's ancestors nearest first. -/
def componentRemove (blocked : Bool) (ancestors : List AncView) :
    Except Unit String :=
  match remove_node blocked with
  | .error _ => .error ()
  | .ok _ =>
    match ancestors.head? with
    | some parent =>
      if parent.canView then .ok parent.url else .ok "/dashboard/"
    | none => .ok "/dashboard/"

/-- The redirect described by the specification sentence under test: the URL
of the nearest ancestor viewable by the actor, with the dashboard fallback
when no ancestor is viewable. -/
def nearestViewableAncestorUrl (ancestors : List AncView) : String :=
  match ancestors.find? (fun a => a.canView) with
  | some a => a.url
  | none => "/dashboard/"

/-! ## Theorems -/

/-- C1: `reorder_children` succeeds iff the submitted list is exactly a
permutation of the node's active (non-deleted) children; on success the stored
order becomes the submitted list followed by the previously deleted children,
and on failure the stored order is unchanged.  The hypothesis that the active
child list has no duplicate entries reflects the data-model invariant that a
node appears at most once among its parent's children. -/
theorem reorder_children_exact_permutation (isDel : Nat → Bool)
    (nodes newList : List Nat)
    (hnd : (nodes.filter (fun k => !isDel k)).Nodup) :
    ((projectReorderComponents isDel nodes newList).2 = true ↔
      newList.Perm (nodes.filter (fun k => !isDel k)))
    ∧ ((projectReorderComponents isDel nodes newList).2 = true →
      (projectReorderComponents isDel nodes newList).1
        = newList ++ nodes.filter (fun k => isDel k))
    ∧ ((projectReorderComponents isDel nodes newList).2 = false →
      (projectReorderComponents isDel nodes newList).1 = nodes) := by
  set valid := nodes.filter (fun k => !isDel k) with hvalid
  by_cases hcond : reorderCheck valid newList = true
  · have hres : projectReorderComponents isDel nodes newList
        = (newList ++ nodes.filter (fun k => isDel k), true) := by
      simp only [projectReorderComponents, ← hvalid, hcond, if_true]
    have hparts := hcond
    simp only [reorderCheck, Bool.and_eq_true, beq_iff_eq, List.all_eq_true] at hparts
    obtain ⟨⟨hlen, hsub₁⟩, hsub₂⟩ := hparts
    have hsub₁' : valid ⊆ newList := by
      intro a ha
      have := hsub₁ a ha
      simpa using this
    have hperm : valid.Perm newList := by
      refine List.Subperm.perm_of_length_le (List.subperm_of_subset hnd hsub₁') ?_
      omega
    refine ⟨?_, ?_, ?_⟩
    · rw [hres]
      simpa using hperm.symm
    · intro _
      rw [hres]
    · intro hfalse
      rw [hres] at hfalse
      simp at hfalse
  · have hcond' : reorderCheck valid newList = false := by
      simpa using hcond
    have hres : projectReorderComponents isDel nodes newList = (nodes, false) := by
      simp only [projectReorderComponents, ← hvalid, hcond', Bool.false_eq_true, if_false]
    refine ⟨⟨?_, ?_⟩, ?_, ?_⟩
    · intro h
      rw [hres] at h
      simp at h
    · intro hperm
      exfalso
      apply hcond
      simp only [reorderCheck, Bool.and_eq_true, beq_iff_eq, List.all_eq_true]
      refine ⟨⟨hperm.length_eq.symm, fun a ha => ?_⟩, fun a ha => ?_⟩
      · simpa using hperm.symm.subset ha
      · simpa using hperm.subset ha
    · intro h
      rw [hres] at h
      simp at h
    · intro _
      rw [hres]

/-- Witness for C1: reordering the two active children `[1, 2]` as `[2, 1]`
succeeds and stores `[2, 1]`. -/
theorem reorder_children_exact_permutation_witness :
    ([1, 2].filter (fun k => !(fun _ : Nat => false) k)).Nodup
    ∧ (((projectReorderComponents (fun _ => false) [1, 2] [2, 1]).2 = true ↔
        List.Perm [2, 1] ([1, 2].filter (fun k => !(fun _ : Nat => false) k)))
      ∧ ((projectReorderComponents (fun _ => false) [1, 2] [2, 1]).2 = true →
        (projectReorderComponents (fun _ => false) [1, 2] [2, 1]).1
          = [2, 1] ++ [1, 2].filter (fun k => (fun _ : Nat => false) k))
      ∧ ((projectReorderComponents (fun _ => false) [1, 2] [2, 1]).2 = false →
        (projectReorderComponents (fun _ => false) [1, 2] [2, 1]).1 = [1, 2])) :=
  ⟨by decide,
    reorder_children_exact_permutation (fun _ => false) [1, 2] [2, 1] (by decide)⟩

/-- C9: `configure_comments` resets the stored comment level on a falsy input,
stores `public` and `private` as given, and rejects any other non-empty value
as a bad request before saving, leaving the stored level unchanged. -/
theorem configure_comments_levels (node : CNode) (lvl : Option String) :
    (isFalsy lvl = true →
      configureComments node lvl = ({ commentLevel := none }, true))
    ∧ (lvl = some "public" ∨ lvl = some "private" →
      configureComments node lvl = ({ commentLevel := lvl }, true))
    ∧ (isFalsy lvl = false → lvl ≠ some "public" → lvl ≠ some "private" →
      configureComments node lvl = (node, false)) := by
  refine ⟨fun hf => ?_, fun hv => ?_, fun hf hp hq => ?_⟩
  · simp [configureComments, hf]
  · rcases hv with hv | hv <;> subst hv
    · have hf : isFalsy (some "public") = false := by decide
      simp [configureComments, hf]
    · have hf : isFalsy (some "private") = false := by decide
      simp [configureComments, hf]
  · simp only [configureComments, hf, Bool.false_eq_true, if_false]
    have hp' : (lvl == some "public") = false := by
      simpa using hp
    have hq' : (lvl == some "private") = false := by
      simpa using hq
    simp [hp', hq']

/-- Witness for C9: the unknown level `"banana"` is rejected and the stored
level (here `public`) is unchanged. -/
theorem configure_comments_levels_witness :
    isFalsy (some "banana") = false
    ∧ some "banana" ≠ (some "public" : Option String)
    ∧ some "banana" ≠ (some "private" : Option String)
    ∧ configureComments ⟨some "public"⟩ (some "banana")
        = (⟨some "public"⟩, false) :=
  ⟨by decide, by decide, by decide,
    (configure_comments_levels ⟨some "public"⟩ (some "banana")).2.2
      (by decide) (by decide) (by decide)⟩

/-- C8: `search_node` returns an empty node list for a query that is empty
after stripping, and otherwise every returned node is non-deleted, not a
collection, visible to the caller (contributor, or public when
`includePublic` is set), and — when a node was loaded from the request's
`nodeId` — is neither that node nor one of its child nodes. -/
theorem search_node_filters (titleMatch : List Char → List Char → Bool)
    (allNodes : List SNode) (userId : Nat) (excluded : Option (Nat × List Nat))
    (includePublic : Bool) (size page : Nat) (rawQuery : List Char) :
    ((pyStrip rawQuery).isEmpty = true →
      searchNode titleMatch allNodes userId excluded includePublic size page
        rawQuery = [])
    ∧ ∀ n ∈ searchNode titleMatch allNodes userId excluded includePublic size
        page rawQuery,
        n.isDeleted = false
        ∧ n.isCollection = false
        ∧ (userId ∈ n.contributors ∨ (includePublic = true ∧ n.isPublic = true))
        ∧ ∀ k kids, excluded = some (k, kids) → n.id ≠ k ∧ n.id ∉ kids := by
  constructor
  · intro h
    simp [searchNode, h]
  · intro n hn
    simp only [searchNode] at hn
    split at hn
    · simp at hn
    · obtain ⟨hmem2, _⟩ := List.mem_filter.mp hn
      have hmem3 := List.take_subset _ _ hmem2
      have hmem4 := List.drop_subset _ _ hmem3
      obtain ⟨_, hmatch⟩ := List.mem_filter.mp hmem4
      simp only [odmMatch, Bool.and_eq_true, Bool.or_eq_true,
        Bool.not_eq_true'] at hmatch
      obtain ⟨⟨⟨⟨_, hdel⟩, hvis⟩, hcol⟩, hexc⟩ := hmatch
      refine ⟨hdel, hcol, ?_, ?_⟩
      · rcases hvis with hv | hv
        · left
          simpa using hv
        · right
          simpa [Bool.and_eq_true] using hv
      · intro k kids hk
        subst hk
        simp only [Bool.not_eq_true'] at hexc
        have : n.id ∉ k :: kids := by
          simpa using hexc
        simp only [List.mem_cons, not_or] at this
        exact this

/-- Witness for C8: a single matching node is returned and satisfies all the
filter properties. -/
theorem search_node_filters_witness :
    (⟨7, ['t'], false, false, false, [3]⟩ : SNode) ∈ searchNode
        (fun _ _ => true) [⟨7, ['t'], false, false, false, [3]⟩] 3
        (some (9, [4])) false 5 0 ['q']
    ∧ ((⟨7, ['t'], false, false, false, [3]⟩ : SNode).isDeleted = false
      ∧ (⟨7, ['t'], false, false, false, [3]⟩ : SNode).isCollection = false
      ∧ ((3 : Nat) ∈ (⟨7, ['t'], false, false, false, [3]⟩ : SNode).contributors
          ∨ (false = true
            ∧ (⟨7, ['t'], false, false, false, [3]⟩ : SNode).isPublic = true))
      ∧ ∀ k kids, (some (9, [4]) : Option (Nat × List Nat)) = some (k, kids) →
          (⟨7, ['t'], false, false, false, [3]⟩ : SNode).id ≠ k
          ∧ (⟨7, ['t'], false, false, false, [3]⟩ : SNode).id ∉ kids) :=
  ⟨by decide,
    (search_node_filters (fun _ _ => true) [⟨7, ['t'], false, false, false, [3]⟩]
        3 (some (9, [4])) false 5 0 ['q']).2 _ (by decide)⟩

/-- Weakening: a descendant reachable from a child list is still reachable
after another child is put in front of the list. -/
theorem editableReach_cons {c : NTree} {cs : List NTree} {d : NTree}
    (h : EditableReach cs d) : EditableReach (c :: cs) d := by
  cases h with
  | here hm ho => exact .here (List.mem_cons_of_mem _ hm) ho
  | deeper hm ho hr => exact .deeper (List.mem_cons_of_mem _ hm) ho hr

/-- Every entry produced by the `_get_children` loop over a child list comes
from a node reachable through non-deleted, admin-permitted children only, and
itself is non-deleted and admin-permitted. -/
theorem mem_getChildrenList (cs : List NTree) (indent : Nat) :
    ∀ e ∈ getChildrenList cs indent,
    ∃ d : NTree, EditableReach cs d ∧ d.info.isDeleted = false ∧ d.admin = true
      ∧ e.id = d.info.key ∧ e.title = d.info.title
      ∧ e.isPublic = d.info.isPublic ∧ e.parentId = d.info.parentId := by
  induction cs, indent using getChildrenList.induct with
  | case1 indent =>
    intro e he
    simp [getChildrenList] at he
  | case2 i a cs rest indent ih1 ih2 =>
    intro e he
    rw [getChildrenList] at he
    rcases List.mem_append.mp he with h | h
    · split at h
      case isTrue hok =>
        have hok' : editableOk (NTree.node i a cs) = true := by
          simpa [editableOk, NTree.info, NTree.admin] using hok
        rcases List.mem_cons.mp h with rfl | h'
        · refine ⟨NTree.node i a cs, .here (List.mem_cons_self _ _) hok', ?_⟩
          simp only [Bool.and_eq_true, Bool.not_eq_true'] at hok
          exact ⟨hok.1, hok.2, rfl, rfl, rfl, rfl⟩
        · obtain ⟨d, hreach, hprops⟩ := ih1 e h'
          exact ⟨d, .deeper (List.mem_cons_self _ _) hok' hreach, hprops⟩
      case isFalse =>
        simp at h
    · obtain ⟨d, hreach, hprops⟩ := ih2 e h
      exact ⟨d, editableReach_cons hreach, hprops⟩

/-- C10: every entry in the children list returned by
`get_editable_children` is a non-deleted descendant on which the user has
admin permission, and it is reachable only through children that are
themselves non-deleted and admin-permitted — the traversal never descends
past a deleted child or one without the user's admin permission. -/
theorem get_editable_children_admin_descendants (t : NTree)
    (resp : EditableChildrenResp) (hresp : get_editable_children t = some resp)
    (e : ChildEntry) (he : e ∈ resp.children) :
    ∃ d : NTree, EditableReach t.children d
      ∧ d.info.isDeleted = false ∧ d.admin = true
      ∧ e.id = d.info.key ∧ e.title = d.info.title
      ∧ e.isPublic = d.info.isPublic ∧ e.parentId = d.info.parentId := by
  have hch : resp.children = getChildrenList t.children 0 := by
    unfold get_editable_children at hresp
    split at hresp
    · cases hresp
      rfl
    · cases hresp
  rw [hch] at he
  exact mem_getChildrenList t.children 0 e he

/-- Witness for C10: a root with one live admin child lists exactly that
child, and the theorem locates it as an admissible descendant. -/
theorem get_editable_children_admin_descendants_witness :
    get_editable_children
        (NTree.node ⟨0, ['r'], false, true, 0⟩ true
          [NTree.node ⟨1, ['a'], false, true, 0⟩ true []])
      = some ⟨0, ['r'], true, [⟨1, ['a'], 0, true, 0⟩]⟩
    ∧ (⟨1, ['a'], 0, true, 0⟩ : ChildEntry)
        ∈ (⟨0, ['r'], true, [⟨1, ['a'], 0, true, 0⟩]⟩ : EditableChildrenResp).children
    ∧ ∃ d : NTree,
        EditableReach (NTree.node ⟨0, ['r'], false, true, 0⟩ true
          [NTree.node ⟨1, ['a'], false, true, 0⟩ true []]).children d
        ∧ d.info.isDeleted = false ∧ d.admin = true
        ∧ (⟨1, ['a'], 0, true, 0⟩ : ChildEntry).id = d.info.key
        ∧ (⟨1, ['a'], 0, true, 0⟩ : ChildEntry).title = d.info.title
        ∧ (⟨1, ['a'], 0, true, 0⟩ : ChildEntry).isPublic = d.info.isPublic
        ∧ (⟨1, ['a'], 0, true, 0⟩ : ChildEntry).parentId = d.info.parentId :=
  have h1 : get_editable_children
      (NTree.node ⟨0, ['r'], false, true, 0⟩ true
        [NTree.node ⟨1, ['a'], false, true, 0⟩ true []])
      = some ⟨0, ['r'], true, [⟨1, ['a'], 0, true, 0⟩]⟩ := by
    simp [get_editable_children, getChildren, getChildrenList, NTree.admin,
      NTree.info, NTree.children]
  ⟨h1, by decide,
    get_editable_children_admin_descendants _ _ h1 _ (by decide)⟩

/-- Characterization of a successful `add_pointer`: the target is not the
host, the host has no active pointer to it yet, and it is not a tree
ancestor or descendant of the host. -/
theorem addPointer_ok_iff (anc : Nat → Nat → Bool) (hostKey : Nat)
    (ptrs : List Ptr) (fresh : Nat) (t : Nat) :
    (∃ r, addPointer anc hostKey ptrs fresh t = .ok r) ↔
      t ≠ hostKey ∧ anc hostKey t = false ∧ anc t hostKey = false
        ∧ ∀ p ∈ ptrs, p.target ≠ t := by
  unfold addPointer
  split_ifs with h1 h2 h3
  · simp only [beq_iff_eq] at h1
    constructor
    · rintro ⟨r, hr⟩
      cases hr
    · rintro ⟨hne, -, -, -⟩
      exact absurd h1 hne
  · constructor
    · rintro ⟨r, hr⟩
      cases hr
    · rintro ⟨-, -, -, hno⟩
      simp only [List.any_eq_true, beq_iff_eq] at h2
      obtain ⟨p, hp, hpt⟩ := h2
      exact absurd hpt (hno p hp)
  · constructor
    · rintro ⟨r, hr⟩
      cases hr
    · rintro ⟨-, ha, hb, -⟩
      simp [ha, hb] at h3
  · constructor
    · intro _
      refine ⟨by simpa using h1, ?_, ?_, ?_⟩
      · simp only [Bool.or_eq_true, not_or] at h3
        simpa using h3.1
      · simp only [Bool.or_eq_true, not_or] at h3
        simpa using h3.2
      · intro p hp hc
        apply h2
        simp only [List.any_eq_true, beq_iff_eq]
        exact ⟨p, hp, hc⟩
    · intro _
      exact ⟨_, rfl⟩

/-- The value produced by a successful `add_pointer`: the old list with one
fresh record for the target appended, and the next fresh key. -/
theorem addPointer_ok_val (anc : Nat → Nat → Bool) (hostKey : Nat)
    (ptrs : List Ptr) (fresh : Nat) (t : Nat) (r : List Ptr × Nat)
    (h : addPointer anc hostKey ptrs fresh t = .ok r) :
    r = (ptrs ++ [⟨fresh, t⟩], fresh + 1) := by
  unfold addPointer at h
  split_ifs at h
  all_goals cases h
  rfl

/-- The `_add_pointers` loop either completes, appending exactly one fresh
record per target, or raises; it completes precisely when the targets are
pairwise distinct and each one is valid against the host's saved pointer
list. -/
theorem addPointersLoop_spec (anc : Nat → Nat → Bool) (hostKey : Nat)
    (targets : List Nat) : ∀ (saved : List Ptr) (fresh : Nat),
    (addPointersLoop anc hostKey saved fresh targets
        = .ok (saved ++ mkPtrs fresh targets, fresh + targets.length)
      ∨ addPointersLoop anc hostKey saved fresh targets = .error ())
    ∧ ((∃ r, addPointersLoop anc hostKey saved fresh targets = .ok r) ↔
        targets.Nodup
        ∧ ∀ t ∈ targets, t ≠ hostKey ∧ anc hostKey t = false
          ∧ anc t hostKey = false ∧ ∀ p ∈ saved, p.target ≠ t) := by
  induction targets with
  | nil =>
    intro saved fresh
    refine ⟨Or.inl ?_, ?_⟩
    · simp [addPointersLoop, mkPtrs]
    · simp [addPointersLoop]
  | cons t rest ih =>
    intro saved fresh
    rcases hstep : addPointer anc hostKey saved fresh t with e | r
    · have hloop : addPointersLoop anc hostKey saved fresh (t :: rest)
          = .error () := by
        simp [addPointersLoop, hstep]
      refine ⟨Or.inr hloop, ?_⟩
      rw [hloop]
      constructor
      · rintro ⟨r, hr⟩
        cases hr
      · rintro ⟨hnd, hall⟩
        have hok := (addPointer_ok_iff anc hostKey saved fresh t).mpr
          (hall t (List.mem_cons_self _ _))
        obtain ⟨r, hr⟩ := hok
        rw [hstep] at hr
        cases hr
    · have hval := addPointer_ok_val anc hostKey saved fresh t r hstep
      subst hval
      have hloop : addPointersLoop anc hostKey saved fresh (t :: rest)
          = addPointersLoop anc hostKey (saved ++ [⟨fresh, t⟩]) (fresh + 1)
              rest := by
        simp [addPointersLoop, hstep]
      obtain ⟨ihA, ihB⟩ := ih (saved ++ [⟨fresh, t⟩]) (fresh + 1)
      obtain ⟨h1, h2, h3, h4⟩ := (addPointer_ok_iff anc hostKey saved fresh
        t).mp ⟨_, hstep⟩
      constructor
      · rcases ihA with hA | hA
        · left
          rw [hloop, hA]
          have hlen : fresh + 1 + rest.length = fresh + (t :: rest).length := by
            simp
            omega
          rw [List.append_assoc] at hA ⊢
          simp only [mkPtrs, List.singleton_append]
          rw [hlen]
        · right
          rw [hloop, hA]
      · rw [hloop, ihB]
        constructor
        · rintro ⟨hnd, hall⟩
          refine ⟨List.nodup_cons.mpr ⟨?_, hnd⟩, ?_⟩
          · intro htr
            have := (hall t htr).2.2.2 ⟨fresh, t⟩ (by simp)
            simp at this
          · intro u hu
            rcases List.mem_cons.mp hu with rfl | hu'
            · exact ⟨h1, h2, h3, h4⟩
            · obtain ⟨g1, g2, g3, g4⟩ := hall u hu'
              exact ⟨g1, g2, g3, fun p hp => g4 p (List.mem_append_left _ hp)⟩
        · rintro ⟨hnd, hall⟩
          have hndc := List.nodup_cons.mp hnd
          refine ⟨hndc.2, ?_⟩
          intro u hu
          obtain ⟨g1, g2, g3, g4⟩ := hall u (List.mem_cons_of_mem _ hu)
          refine ⟨g1, g2, g3, ?_⟩
          intro p hp
          rcases List.mem_append.mp hp with hp' | hp'
          · exact g4 p hp'
          · simp only [List.mem_singleton] at hp'
            subst hp'
            intro hc
            simp only at hc
            exact hndc.1 (hc ▸ hu)

/-- C3: batch pointer addition through `add_pointers` / `_add_pointers` is
all-or-nothing: on success every pointer of the batch is persisted (one
fresh record per target appended in order); on failure — precisely when some
target repeats in the batch or equals the host or duplicates an active
pointer or is a tree ancestor/descendant of the host — the persisted pointer
list is unchanged and the request fails as a bad request. -/
theorem add_pointers_all_or_nothing (anc : Nat → Nat → Bool) (hostKey : Nat)
    (saved : List Ptr) (fresh : Nat) (targets : List Nat) :
    ((addPointersPersist anc hostKey saved fresh targets).2 = true →
      (addPointersPersist anc hostKey saved fresh targets).1
        = saved ++ mkPtrs fresh targets)
    ∧ ((addPointersPersist anc hostKey saved fresh targets).2 = false →
      (addPointersPersist anc hostKey saved fresh targets).1 = saved)
    ∧ ((addPointersPersist anc hostKey saved fresh targets).2 = false ↔
        ¬(targets.Nodup
          ∧ ∀ t ∈ targets, t ≠ hostKey ∧ anc hostKey t = false
            ∧ anc t hostKey = false ∧ ∀ p ∈ saved, p.target ≠ t)) := by
  obtain ⟨hA, hB⟩ := addPointersLoop_spec anc hostKey targets saved fresh
  unfold addPointersPersist
  rcases hA with hA | hA <;> rw [hA]
  · have hconds := hB.mp ⟨_, hA⟩
    refine ⟨fun _ => rfl, by simp, ?_⟩
    constructor
    · intro h
      simp at h
    · intro hnot
      exact absurd hconds hnot
  · refine ⟨by simp, fun _ => rfl, ?_⟩
    simp only [iff_true_intro rfl, true_iff]
    intro hconds
    obtain ⟨r, hr⟩ := hB.mpr hconds
    rw [hA] at hr
    cases hr

/-- Witness for C3: adding targets `[1, 2]` to host `0` with no prior
pointers succeeds and persists exactly the two fresh records. -/
theorem add_pointers_all_or_nothing_witness :
    (addPointersPersist (fun _ _ => false) 0 [] 10 [1, 2]).2 = true
    ∧ (addPointersPersist (fun _ _ => false) 0 [] 10 [1, 2]).1
        = [] ++ mkPtrs 10 [1, 2] :=
  ⟨by decide,
    (add_pointers_all_or_nothing (fun _ _ => false) 0 [] 10 [1, 2]).1
      (by decide)⟩

/-- A list holding two distinct members has length at least two. -/
theorem two_le_length_of_mem_ne {α : Type} {l : List α} {a b : α}
    (hab : a ≠ b) (ha : a ∈ l) (hb : b ∈ l) : 2 ≤ l.length := by
  induction l with
  | nil => cases ha
  | cons x xs ih =>
    simp only [List.length_cons]
    rcases List.mem_cons.mp ha with rfl | ha'
    · rcases List.mem_cons.mp hb with rfl | hb'
      · exact absurd rfl hab
      · have h1 : 0 < xs.length := List.length_pos.mpr (List.ne_nil_of_mem hb')
        omega
    · rcases List.mem_cons.mp hb with rfl | hb'
      · have h1 : 0 < xs.length := List.length_pos.mpr (List.ne_nil_of_mem ha')
        omega
      · have := ih ha' hb'
        omega

/-- C2 counterexample: the from-node holds a pointer to node `5`, and node
`5` itself is submitted as the destination.  The remove half succeeds and is
persisted, then the add half raises (`add_pointer` rejects a self-pointer),
so the request fails with the pointer left absent from both nodes — the
operation is not logically atomic as claimed. -/
theorem move_pointer_not_atomic_counterexample :
    ((⟨[⟨0, 5⟩], [], 1⟩ : MoveState).fromPtrs.any (fun p => p.target == 5)
        || (⟨[⟨0, 5⟩], [], 1⟩ : MoveState).toPtrs.any (fun p => p.target == 5))
      = true
    ∧ (movePointers (fun _ _ => false) 5 ⟨[⟨0, 5⟩], [], 1⟩ [5]).2 = false
    ∧ ((movePointers (fun _ _ => false) 5 ⟨[⟨0, 5⟩], [], 1⟩ [5]).1.fromPtrs.any
          (fun p => p.target == 5)
        || (movePointers (fun _ _ => false) 5 ⟨[⟨0, 5⟩], [], 1⟩ [5]).1.toPtrs.any
          (fun p => p.target == 5)) = false := by
  decide

/-- C2 (amended): on success `move_pointers` leaves the from-node with no
active pointer to the target, the to-node with exactly one, and exactly one
pointer record for the target across the two nodes.  On failure the state is
either fully unchanged (failure before the remove half) or the removal alone
has been persisted with the to-node untouched — in the latter case the
pointer is absent from both nodes, there being no compensating step.  The
hypothesis is the no-duplicate invariant: the from-node holds at most one
active pointer to the target. -/
theorem move_pointer_resolution (anc : Nat → Nat → Bool) (toKey : Nat)
    (st : MoveState) (t : Nat)
    (hdup : (st.fromPtrs.filter (fun p => p.target == t)).length ≤ 1) :
    ((movePointers anc toKey st [t]).2 = true →
      (∀ p ∈ (movePointers anc toKey st [t]).1.fromPtrs, p.target ≠ t)
      ∧ ((movePointers anc toKey st [t]).1.toPtrs.filter
          (fun p => p.target == t)).length = 1
      ∧ (((movePointers anc toKey st [t]).1.fromPtrs
            ++ (movePointers anc toKey st [t]).1.toPtrs).filter
          (fun p => p.target == t)).length = 1)
    ∧ ((movePointers anc toKey st [t]).2 = false →
      (movePointers anc toKey st [t]).1 = st
      ∨ ((movePointers anc toKey st [t]).1.toPtrs = st.toPtrs
        ∧ ∃ p, st.fromPtrs.find? (fun q => q.target == t) = some p
          ∧ (movePointers anc toKey st [t]).1.fromPtrs
              = st.fromPtrs.erase p)) := by
  rcases hfind : st.fromPtrs.find? (fun p => p.target == t) with _ | p
  · have hres : movePointers anc toKey st [t] = (st, false) := by
      simp [movePointers, moveOnePointer, hfind]
    rw [hres]
    exact ⟨by simp, fun _ => Or.inl rfl⟩
  · have hpmem : p ∈ st.fromPtrs := List.mem_of_find?_eq_some hfind
    have hpt : p.target = t := by
      have := List.find?_some hfind
      simpa using this
    have hcont : st.fromPtrs.contains p = true := by
      simpa using hpmem
    have hrm : rmPointer st.fromPtrs p = .ok (st.fromPtrs.erase p) := by
      simp [rmPointer, hcont, hpmem]
    have hnone : ∀ q ∈ st.fromPtrs.erase p, q.target ≠ t := by
      intro q hq hqt
      have hqmem : q ∈ st.fromPtrs := List.mem_of_mem_erase hq
      by_cases hqp : q = p
      · subst hqp
        have hcf : (st.fromPtrs.filter (fun r => r.target == t)).count q
            = st.fromPtrs.count q := List.count_filter (by simp [hqt])
        have hcl := List.count_le_length q
          (st.fromPtrs.filter (fun r => r.target == t))
        have hcount : st.fromPtrs.count q ≤ 1 := by omega
        have hz : (st.fromPtrs.erase q).count q = 0 := by
          rw [List.count_erase_self]
          have hpos : 0 < st.fromPtrs.count q := List.count_pos_iff.mpr hqmem
          omega
        exact (List.count_eq_zero.mp hz) hq
      · have h2 : 2 ≤ (st.fromPtrs.filter (fun r => r.target == t)).length :=
          two_le_length_of_mem_ne hqp
            (List.mem_filter.mpr ⟨hqmem, by simp [hqt]⟩)
            (List.mem_filter.mpr ⟨hpmem, by simp [hpt]⟩)
        omega
    rcases hadd : addPointer anc toKey st.toPtrs st.fresh t with e | r
    · have hres : movePointers anc toKey st [t]
          = ({ st with fromPtrs := st.fromPtrs.erase p }, false) := by
        simp [movePointers, moveOnePointer, hfind, hrm, hadd]
      rw [hres]
      exact ⟨by simp, fun _ => Or.inr ⟨rfl, p, hfind, rfl⟩⟩
    · have hval := addPointer_ok_val anc toKey st.toPtrs st.fresh t r hadd
      subst hval
      obtain ⟨-, -, -, h4⟩ :=
        (addPointer_ok_iff anc toKey st.toPtrs st.fresh t).mp ⟨_, hadd⟩
      have hres : movePointers anc toKey st [t]
          = ({ fromPtrs := st.fromPtrs.erase p,
               toPtrs := st.toPtrs ++ [⟨st.fresh, t⟩],
               fresh := st.fresh + 1 }, true) := by
        simp [movePointers, moveOnePointer, hfind, hrm, hadd]
      have hto : st.toPtrs.filter (fun q => q.target == t) = [] := by
        rw [List.filter_eq_nil_iff]
        intro q hq
        simp [h4 q hq]
      have hfrom : (st.fromPtrs.erase p).filter (fun q => q.target == t)
          = [] := by
        rw [List.filter_eq_nil_iff]
        intro q hq
        simp [hnone q hq]
      rw [hres]
      refine ⟨fun _ => ⟨hnone, ?_, ?_⟩, by simp⟩
      · rw [List.filter_append, hto]
        simp
      · rw [List.filter_append, List.filter_append, hfrom, hto]
        simp

/-- Witness for C2 (amended): moving the pointer to node `5` from a node
holding exactly that pointer onto node `9` succeeds, and the postconditions
hold. -/
theorem move_pointer_resolution_witness :
    ((⟨[⟨0, 5⟩], [], 1⟩ : MoveState).fromPtrs.filter
        (fun p => p.target == 5)).length ≤ 1
    ∧ (((movePointers (fun _ _ => false) 9 ⟨[⟨0, 5⟩], [], 1⟩ [5]).2 = true →
        (∀ p ∈ (movePointers (fun _ _ => false) 9 ⟨[⟨0, 5⟩], [], 1⟩
            [5]).1.fromPtrs, p.target ≠ 5)
        ∧ ((movePointers (fun _ _ => false) 9 ⟨[⟨0, 5⟩], [], 1⟩
            [5]).1.toPtrs.filter (fun p => p.target == 5)).length = 1
        ∧ (((movePointers (fun _ _ => false) 9 ⟨[⟨0, 5⟩], [], 1⟩
              [5]).1.fromPtrs
            ++ (movePointers (fun _ _ => false) 9 ⟨[⟨0, 5⟩], [], 1⟩
              [5]).1.toPtrs).filter (fun p => p.target == 5)).length = 1)
      ∧ ((movePointers (fun _ _ => false) 9 ⟨[⟨0, 5⟩], [], 1⟩ [5]).2 = false →
        (movePointers (fun _ _ => false) 9 ⟨[⟨0, 5⟩], [], 1⟩ [5]).1
            = ⟨[⟨0, 5⟩], [], 1⟩
        ∨ ((movePointers (fun _ _ => false) 9 ⟨[⟨0, 5⟩], [], 1⟩ [5]).1.toPtrs
              = (⟨[⟨0, 5⟩], [], 1⟩ : MoveState).toPtrs
          ∧ ∃ p, (⟨[⟨0, 5⟩], [], 1⟩ : MoveState).fromPtrs.find?
                (fun q => q.target == 5) = some p
            ∧ (movePointers (fun _ _ => false) 9 ⟨[⟨0, 5⟩], [], 1⟩
                [5]).1.fromPtrs
                = (⟨[⟨0, 5⟩], [], 1⟩ : MoveState).fromPtrs.erase p))) :=
  ⟨by decide,
    move_pointer_resolution (fun _ _ => false) 9 ⟨[⟨0, 5⟩], [], 1⟩ 5
      (by decide)⟩

/-- C4: the permission guard of `project_set_privacy` runs before any state
mutation — a non-admin actor is rejected with `PermissionDenied` and the
node is unchanged; an admin requesting `public` on an archiving or retracted
node gets a `NodeStateError` surfaced as a bad request with the node
unchanged; otherwise the transition is applied. -/
theorem set_privacy_guards (hasAdmin : Bool) (node : PrivNode)
    (permissions : Option TargetPrivacy) :
    (hasAdmin = false →
      projectSetPrivacy hasAdmin node permissions
        = (node, some .permissionDenied))
    ∧ (hasAdmin = true → permissions = some .toPublic →
      (node.archiving = true ∨ node.isRetracted = true) →
      projectSetPrivacy hasAdmin node permissions
        = (node, some .badRequestNodeState))
    ∧ (hasAdmin = true → permissions = some .toPublic →
      node.archiving = false → node.isRetracted = false →
      projectSetPrivacy hasAdmin node permissions
        = ({ node with isPublic := true }, none)) := by
  refine ⟨fun h => ?_, fun h hp hs => ?_, fun h hp h1 h2 => ?_⟩
  · simp [projectSetPrivacy, h]
  · subst h
    subst hp
    rcases hs with hs | hs <;> simp [projectSetPrivacy, set_privacy, hs]
  · subst h
    subst hp
    simp [projectSetPrivacy, set_privacy, h1, h2]

/-- Witness for C4: a non-admin request to make a private node public is
rejected with `PermissionDenied` and the node is unchanged. -/
theorem set_privacy_guards_witness :
    (false : Bool) = false
    ∧ projectSetPrivacy false ⟨false, false, false⟩ (some .toPublic)
        = (⟨false, false, false⟩, some .permissionDenied) :=
  ⟨rfl, (set_privacy_guards false ⟨false, false, false⟩
    (some .toPublic)).1 rfl⟩

/-- C5: `node_fork_page` fails with the disk-saving-mode HTTP error at
operation entry — before any fork work — whenever the system-wide
disk-saving mode is active; with the mode off it fails as forbidden when the
actor lacks read access; otherwise it returns the new fork. -/
theorem fork_page_guards (diskSavingMode canRead : Bool)
    (created : List Nat) (fresh : Nat) :
    (diskSavingMode = true →
      nodeForkPage diskSavingMode canRead created fresh
        = (created, .error .diskSavingMode))
    ∧ (diskSavingMode = false → canRead = false →
      nodeForkPage diskSavingMode canRead created fresh
        = (created, .error .forbidden))
    ∧ (diskSavingMode = false → canRead = true →
      nodeForkPage diskSavingMode canRead created fresh
        = (created ++ [fresh], .ok fresh)) := by
  refine ⟨fun h => ?_, fun h hr => ?_, fun h hr => ?_⟩
  · simp [nodeForkPage, h]
  · simp [nodeForkPage, fork_node, h, hr]
  · simp [nodeForkPage, fork_node, h, hr]

/-- Witness for C5: with disk-saving mode active the request fails with the
disk-saving error and no node is created, even for an actor with read
access. -/
theorem fork_page_guards_witness :
    (true : Bool) = true
    ∧ nodeForkPage true true [] 3 = ([], .error .diskSavingMode) :=
  ⟨rfl, (fork_page_guards true true [] 3).1 rfl⟩

/-- Writing a whitelisted field never touches the contributor permissions,
the tree links, or the audit log. -/
theorem setField_preserves (n : UNode) (key v : String) :
    (setField n key v).contributorPerms = n.contributorPerms
    ∧ (setField n key v).childKeys = n.childKeys
    ∧ (setField n key v).logs = n.logs := by
  unfold setField
  split_ifs <;> exact ⟨rfl, rfl, rfl⟩

/-- Behaviour of `node.update` over a change list: a completed update leaves
the non-whitelisted state untouched and reports only whitelisted submitted
fields; a failure names a submitted non-whitelisted field; and a submitted
non-whitelisted field forces a failure. -/
theorem nodeUpdate_spec (changes : List (String × String)) : ∀ node : UNode,
    (∀ node' names, nodeUpdate node changes = .ok (node', names) →
      node'.contributorPerms = node.contributorPerms
      ∧ node'.childKeys = node.childKeys
      ∧ node'.logs = node.logs
      ∧ ∀ name ∈ names, name ∈ WRITABLE_WHITELIST
          ∧ name ∈ changes.map Prod.fst)
    ∧ (∀ key, nodeUpdate node changes = .error key →
      key ∉ WRITABLE_WHITELIST ∧ key ∈ changes.map Prod.fst)
    ∧ ((∃ key ∈ changes.map Prod.fst, key ∉ WRITABLE_WHITELIST) →
      ∃ key, nodeUpdate node changes = .error key) := by
  induction changes with
  | nil =>
    intro node
    refine ⟨?_, ?_, ?_⟩
    · intro node' names h
      simp only [nodeUpdate, Except.ok.injEq, Prod.mk.injEq] at h
      obtain ⟨rfl, rfl⟩ := h
      exact ⟨rfl, rfl, rfl, by simp⟩
    · intro key h
      simp [nodeUpdate] at h
    · rintro ⟨key, hk, -⟩
      simp at hk
  | cons kv rest ih =>
    intro node
    obtain ⟨key, v⟩ := kv
    by_cases hw : key ∈ WRITABLE_WHITELIST
    · have hstep : nodeUpdate node ((key, v) :: rest)
          = match nodeUpdate (setField node key v) rest with
            | .error e => .error e
            | .ok (node', names) =>
              .ok (node',
                if getField node key = v then names else key :: names) := by
        simp [nodeUpdate, hw]
      obtain ⟨ihA, ihB, ihC⟩ := ih (setField node key v)
      obtain ⟨hp1, hp2, hp3⟩ := setField_preserves node key v
      refine ⟨?_, ?_, ?_⟩
      · intro node' names h
        rw [hstep] at h
        rcases hrec : nodeUpdate (setField node key v) rest with e | pr
        · rw [hrec] at h
          cases h
        · obtain ⟨rnode, rnames⟩ := pr
          rw [hrec] at h
          simp only [Except.ok.injEq, Prod.mk.injEq] at h
          obtain ⟨h1, h2⟩ := h
          subst h1
          subst h2
          obtain ⟨g1, g2, g3, g4⟩ := ihA rnode rnames hrec
          refine ⟨g1.trans hp1, g2.trans hp2, g3.trans hp3, ?_⟩
          intro name hname
          by_cases hcond : getField node key = v
          · rw [if_pos hcond] at hname
            have hg := g4 name hname
            exact ⟨hg.1, by simp [hg.2]⟩
          · rw [if_neg hcond] at hname
            rcases List.mem_cons.mp hname with rfl | hname'
            · exact ⟨hw, by simp⟩
            · have hg := g4 name hname'
              exact ⟨hg.1, by simp [hg.2]⟩
      · intro k h
        rw [hstep] at h
        rcases hrec : nodeUpdate (setField node key v) rest with e | pr
        · rw [hrec] at h
          simp only [Except.error.injEq] at h
          subst h
          obtain ⟨g1, g2⟩ := ihB e hrec
          refine ⟨g1, ?_⟩
          simp only [List.map_cons, List.mem_cons]
          exact Or.inr g2
        · obtain ⟨rnode, rnames⟩ := pr
          rw [hrec] at h
          cases h
      · rintro ⟨k, hk, hknw⟩
        simp only [List.map_cons, List.mem_cons] at hk
        rcases hk with rfl | hk'
        · exact absurd hw hknw
        · obtain ⟨k', hk'err⟩ := ihC ⟨k, hk', hknw⟩
          rw [hstep]
          refine ⟨k', ?_⟩
          rw [hk'err]
    · have hstep : nodeUpdate node ((key, v) :: rest) = .error key := by
        simp [nodeUpdate, hw]
      refine ⟨?_, ?_, ?_⟩
      · intro node' names h
        rw [hstep] at h
        cases h
      · intro k h
        rw [hstep] at h
        cases h
        exact ⟨hw, by simp⟩
      · intro _
        exact ⟨key, hstep⟩

/-- C6: `update_node` changes only whitelisted fields — never the
contributor permissions, tree links, or audit log; every returned changed
field name is a whitelisted submitted field; submitting any non-whitelisted
field fails as a bad request naming an offending field and leaves the
persisted node unchanged. -/
theorem update_node_whitelist (node : UNode)
    (changes : List (String × String)) :
    (∀ node' names, updateNodeView node changes = (node', .ok names) →
      node'.contributorPerms = node.contributorPerms
      ∧ node'.childKeys = node.childKeys
      ∧ node'.logs = node.logs
      ∧ ∀ name ∈ names, name ∈ WRITABLE_WHITELIST
          ∧ name ∈ changes.map Prod.fst)
    ∧ (∀ node' key, updateNodeView node changes = (node', .error key) →
      node' = node ∧ key ∉ WRITABLE_WHITELIST ∧ key ∈ changes.map Prod.fst)
    ∧ ((∃ key ∈ changes.map Prod.fst, key ∉ WRITABLE_WHITELIST) →
      ∃ key, updateNodeView node changes = (node, .error key)
        ∧ key ∉ WRITABLE_WHITELIST) := by
  obtain ⟨hA, hB, hC⟩ := nodeUpdate_spec changes node
  rcases hres : nodeUpdate node changes with e | pr
  · have hview : updateNodeView node changes = (node, .error e) := by
      simp [updateNodeView, hres]
    obtain ⟨g1, g2⟩ := hB e hres
    rw [hview]
    refine ⟨?_, ?_, ?_⟩
    · intro node' names h
      simp only [Prod.mk.injEq] at h
      exact absurd h.2 (by simp)
    · intro node' k h
      simp only [Prod.mk.injEq, Except.error.injEq] at h
      obtain ⟨h1, h2⟩ := h
      subst h2
      exact ⟨h1.symm, g1, g2⟩
    · intro _
      exact ⟨e, rfl, g1⟩
  · obtain ⟨unode, names0⟩ := pr
    have hview : updateNodeView node changes = (unode, .ok names0) := by
      simp [updateNodeView, hres]
    rw [hview]
    refine ⟨?_, ?_, ?_⟩
    · intro node' names h
      simp only [Prod.mk.injEq, Except.ok.injEq] at h
      obtain ⟨h1, h2⟩ := h
      subst h1
      subst h2
      exact hA unode names0 hres
    · intro node' k h
      simp only [Prod.mk.injEq] at h
      exact absurd h.2 (by simp)
    · intro hex
      obtain ⟨k, hk⟩ := hC hex
      rw [hres] at hk
      cases hk

/-- Witness for C6: submitting the non-whitelisted field
`contributors` alongside a title change fails naming an offending field and
leaves the node unchanged. -/
theorem update_node_whitelist_witness :
    updateNodeView ⟨"t", "project", "", [(1, 2)], [4], [9]⟩
        [("title", "u"), ("contributors", "x")]
      = (⟨"t", "project", "", [(1, 2)], [4], [9]⟩, .error "contributors")
    ∧ (⟨"t", "project", "", [(1, 2)], [4], [9]⟩ : UNode)
        = ⟨"t", "project", "", [(1, 2)], [4], [9]⟩
    ∧ "contributors" ∉ WRITABLE_WHITELIST
    ∧ "contributors" ∈ ([("title", "u"), ("contributors", "x")].map
        Prod.fst) :=
  ⟨by rfl, (update_node_whitelist ⟨"t", "project", "", [(1, 2)], [4], [9]⟩
    [("title", "u"), ("contributors", "x")]).2.1 _ _ (by rfl)⟩

/-- C7 counterexample: the removed node's parent is not viewable by the
actor but the grandparent is; the view nevertheless redirects to the
dashboard, not to the nearest viewable ancestor the claim promises. -/
theorem component_remove_redirect_counterexample :
    componentRemove false [⟨"/p/", false⟩, ⟨"/g/", true⟩] = .ok "/dashboard/"
    ∧ nearestViewableAncestorUrl [⟨"/p/", false⟩, ⟨"/g/", true⟩] = "/g/"
    ∧ ("/dashboard/" : String) ≠ "/g/" := by
  refine ⟨rfl, rfl, by decide⟩

/-- C7 (amended): after a successful soft delete, `component_remove` returns
the URL of the immediate parent when it exists and is viewable by the actor,
and the dashboard fallback otherwise — even when a more distant ancestor is
viewable; a blocked removal fails as a bad request. -/
theorem component_remove_redirect (blocked : Bool)
    (ancestors : List AncView) :
    (blocked = true → componentRemove blocked ancestors = .error ())
    ∧ (blocked = false → ∀ parent rest, ancestors = parent :: rest →
        parent.canView = true →
        componentRemove blocked ancestors = .ok parent.url)
    ∧ (blocked = false → ∀ parent rest, ancestors = parent :: rest →
        parent.canView = false →
        componentRemove blocked ancestors = .ok "/dashboard/")
    ∧ (blocked = false → ancestors = [] →
        componentRemove blocked ancestors = .ok "/dashboard/") := by
  refine ⟨fun h => ?_, fun h parent rest ha hv => ?_,
    fun h parent rest ha hv => ?_, fun h ha => ?_⟩
  · simp [componentRemove, remove_node, h]
  · subst h
    subst ha
    simp [componentRemove, remove_node, hv]
  · subst h
    subst ha
    simp [componentRemove, remove_node, hv]
  · subst h
    subst ha
    simp [componentRemove, remove_node]

/-- Witness for C7 (amended): removing a component whose parent is viewable
redirects to that parent's URL. -/
theorem component_remove_redirect_witness :
    (false : Bool) = false
    ∧ ([⟨"/p/", true⟩] : List AncView) = ⟨"/p/", true⟩ :: []
    ∧ (⟨"/p/", true⟩ : AncView).canView = true
    ∧ componentRemove false [⟨"/p/", true⟩]
        = .ok (⟨"/p/", true⟩ : AncView).url :=
  ⟨rfl, rfl, rfl,
    (component_remove_redirect false [⟨"/p/", true⟩]).2.1 rfl
      ⟨"/p/", true⟩ [] rfl rfl⟩
